import Mathlib

/-!
Verification of the incremental protobuf code-generation orchestrator
`proto_generate.py`.  The file shallowly embeds the fingerprinting,
cache, generation and artifact-distribution logic of the script and
proves theorems checking the specification's claims against it.

The filesystem is modelled as finite association lists (regular files,
existing directories, and cache files), the external `protoc` compiler
is a parameter of the semantics, and `hashlib.md5(...).hexdigest()` is
embedded as a full executable MD5 over byte lists.
-/

namespace ProtoGen

/-! ### MD5 (embedding of `hashlib.md5(data).hexdigest()` used by `file_hash`) -/

/-- A file's content: its byte string. -/
abbrev Content := List Nat

def M32 : Nat := 4294967296

def add32 (a b : Nat) : Nat := (a + b) % M32

/-- Bitwise complement on the low 32 bits. -/
def not32 (x : Nat) : Nat := Nat.xor x 4294967295

/-- 32-bit left rotation (argument assumed reduced mod 2^32). -/
def rotl32 (x s : Nat) : Nat :=
  (x % M32) * 2 ^ s % M32 + x % M32 / 2 ^ (32 - s)

/-- The MD5 sine-derived constant table `K`. -/
def mdK : List Nat :=
  [0xd76aa478, 0xe8c7b756, 0x242070db, 0xc1bdceee,
   0xf57c0faf, 0x4787c62a, 0xa8304613, 0xfd469501,
   0x698098d8, 0x8b44f7af, 0xffff5bb1, 0x895cd7be,
   0x6b901122, 0xfd987193, 0xa679438e, 0x49b40821,
   0xf61e2562, 0xc040b340, 0x265e5a51, 0xe9b6c7aa,
   0xd62f105d, 0x02441453, 0xd8a1e681, 0xe7d3fbc8,
   0x21e1cde6, 0xc33707d6, 0xf4d50d87, 0x455a14ed,
   0xa9e3e905, 0xfcefa3f8, 0x676f02d9, 0x8d2a4c8a,
   0xfffa3942, 0x8771f681, 0x6d9d6122, 0xfde5380c,
   0xa4beea44, 0x4bdecfa9, 0xf6bb4b60, 0xbebfbc70,
   0x289b7ec6, 0xeaa127fa, 0xd4ef3085, 0x04881d05,
   0xd9d4d039, 0xe6db99e5, 0x1fa27cf8, 0xc4ac5665,
   0xf4292244, 0x432aff97, 0xab9423a7, 0xfc93a039,
   0x655b59c3, 0x8f0ccc92, 0xffeff47d, 0x85845dd1,
   0x6fa87e4f, 0xfe2ce6e0, 0xa3014314, 0x4e0811a1,
   0xf7537e82, 0xbd3af235, 0x2ad7d2bb, 0xeb86d391]

/-- The MD5 per-round left-rotation amounts. -/
def mdS : List Nat :=
  [7, 12, 17, 22, 7, 12, 17, 22, 7, 12, 17, 22, 7, 12, 17, 22,
   5, 9, 14, 20, 5, 9, 14, 20, 5, 9, 14, 20, 5, 9, 14, 20,
   4, 11, 16, 23, 4, 11, 16, 23, 4, 11, 16, 23, 4, 11, 16, 23,
   6, 10, 15, 21, 6, 10, 15, 21, 6, 10, 15, 21, 6, 10, 15, 21]

/-- Little-endian 32-bit word assembled from 4 bytes of a block. -/
def mdWord (blk : List Nat) (j : Nat) : Nat :=
  blk.getD (4 * j) 0 + 256 * blk.getD (4 * j + 1) 0 +
    65536 * blk.getD (4 * j + 2) 0 + 16777216 * blk.getD (4 * j + 3) 0

/-- One of the 64 MD5 rounds on the running state `(a, b, c, d)`. -/
def md5Round (blk : List Nat) : Nat × Nat × Nat × Nat → Nat → Nat × Nat × Nat × Nat
  | (a, b, c, d), i =>
    let fg : Nat × Nat :=
      if i < 16 then (Nat.lor (Nat.land b c) (Nat.land (not32 b) d), i)
      else if i < 32 then (Nat.lor (Nat.land d b) (Nat.land (not32 d) c), (5 * i + 1) % 16)
      else if i < 48 then (Nat.xor (Nat.xor b c) d, (3 * i + 5) % 16)
      else (Nat.xor c (Nat.lor b (not32 d)), (7 * i) % 16)
    let f := (fg.1 + a + mdK.getD i 0 + mdWord blk fg.2) % M32
    (d, add32 b (rotl32 f (mdS.getD i 0)), b, c)

/-- Process one 512-bit block. -/
def md5Block (st : Nat × Nat × Nat × Nat) (blk : List Nat) : Nat × Nat × Nat × Nat :=
  let r := (List.range 64).foldl (md5Round blk) st
  (add32 st.1 r.1, add32 st.2.1 r.2.1, add32 st.2.2.1 r.2.2.1, add32 st.2.2.2 r.2.2.2)

/-- Split a byte list into 64-byte chunks (`fuel` bounds the recursion). -/
def chunk64 : Nat → List Nat → List (List Nat)
  | 0, _ => []
  | _ + 1, [] => []
  | n + 1, l => l.take 64 :: chunk64 n (l.drop 64)

/-- The 8-byte little-endian encoding of the message bit length. -/
def mdLenBytes (len : Nat) : List Nat :=
  (List.range 8).map (fun i => len * 8 / 256 ^ i % 256)

/-- MD5 padding: `0x80`, zeros to 56 mod 64, then the 64-bit bit length. -/
def md5Pad (data : List Nat) : List Nat :=
  data ++ [128] ++
    List.replicate ((56 + 64 - (data.length + 1) % 64) % 64) 0 ++
    mdLenBytes data.length

/-- Serialize one 32-bit word little-endian. -/
def wordLE (w : Nat) : List Nat :=
  [w % 256, w / 256 % 256, w / 65536 % 256, w / 16777216 % 256]

/-- Serialize the final MD5 state as the 16 digest bytes. -/
def digestBytes : Nat × Nat × Nat × Nat → List Nat
  | (a, b, c, d) => wordLE a ++ wordLE b ++ wordLE c ++ wordLE d

/-- The 16-byte MD5 digest of a byte list. -/
def md5Digest (msg : List Nat) : List Nat :=
  let data := msg.map (· % 256)
  let padded := md5Pad data
  digestBytes ((chunk64 padded.length padded).foldl md5Block
    (0x67452301, 0xefcdab89, 0x98badcfe, 0x10325476))

/-- The sixteen lowercase hexadecimal digit characters. -/
def hexChars : List Char := "0123456789abcdef".data

def hexDigit (n : Nat) : Char := hexChars.getD n '0'

/-- The two hex characters of one byte. -/
def byteHex (b : Nat) : List Char := [hexDigit (b / 16 % 16), hexDigit (b % 16)]

/-- `hashlib.md5(msg).hexdigest()`: the 32-character lowercase hex digest. -/
def md5hex (msg : List Nat) : String := String.mk ((md5Digest msg).flatMap byteHex)

/-! ### Filesystem model

Paths of regular files are split into the containing directory and the
file name (`generate_group` manipulates directories, base names and
`dir / name` joins, never deeper structure).  Cache files are addressed
by the raw `cache` string from the configuration and store the result
of `json.load`: either unparseable data or a record whose only field
relevant to the script is the optional `"hash"` string. -/

structure FPath where
  dir : String
  name : String
deriving DecidableEq

/-- The on-disk state of one cache file, as seen through `json.load`. -/
inductive CacheFile where
  /-- The file exists but does not hold valid JSON: `json.load` raises. -/
  | corrupt
  /-- A parsed record; `hash` is the value of its `"hash"` field, if any. -/
  | valid (hash : Option String)
deriving DecidableEq

/-- Association-list lookup on the first component. -/
def alookup {α β : Type} [DecidableEq α] : List (α × β) → α → Option β
  | [], _ => none
  | (k, v) :: t, a => if a = k then some v else alookup t a

/-- Association-list update: replace the first binding of `a`, else append. -/
def aset {α β : Type} [DecidableEq α] : List (α × β) → α → β → List (α × β)
  | [], a, b => [(a, b)]
  | (k, v) :: t, a, b => if a = k then (a, b) :: t else (k, v) :: aset t a b

/-- The filesystem: regular files, existing directories, cache files. -/
structure FS where
  files : List (FPath × Content)
  dirs : List String
  caches : List (String × CacheFile)
deriving DecidableEq

def lookupFile (st : FS) (p : FPath) : Option Content := alookup st.files p

def setFile (st : FS) (p : FPath) (c : Content) : FS :=
  { st with files := aset st.files p c }

/-- Observable side effects of a run, in order of occurrence. -/
inductive Ev where
  /-- One invocation of the external `protoc` compiler. -/
  | invoke
  /-- Creation of a previously absent directory (`mkdir -p`). -/
  | mkdirEv (d : String)
  /-- A write to regular file `p` (gitignore, compiler output, artifact copy). -/
  | writeFile (p : FPath)
  /-- `save_cache(path, cache)` committing fingerprint `hash`. -/
  | writeCache (path : String) (hash : String)
deriving DecidableEq

/-! ### Embedding of the script's functions -/

/-- `file_hash(filepath)`: MD5 hex digest of the file's bytes (the caller
has already established existence and read the content `data`). -/
def file_hash (data : Content) : String := md5hex data

/-- Line 217, the per-file list comprehension:
`[file_hash(p) if Path(p).exists() else "missing" for p in input_files]`. -/
def inputHashes (st : FS) (input_files : List FPath) : List String :=
  input_files.map (fun p =>
    match lookupFile st p with
    | some data => file_hash data
    | none => "missing")

/-- Line 218: `combined_hash = "".flatten(input_hashes)`. -/
def combinedHash (st : FS) (input_files : List FPath) : String :=
  String.join (inputHashes st input_files)

/-- The fixed content written into each fresh `.gitignore`. -/
def gitignoreContent : Content :=
  ("# Generated Protobuf files\n*.pb.cc\n*.pb.h\n# .gitignore itself\n.gitignore\n".data.map
    Char.toNat)

/-- `create_gitignore(output_dir)`: write the marker file unless present. -/
def create_gitignore (st : FS) (d : String) : FS × List Ev :=
  let p : FPath := ⟨d, ".gitignore"⟩
  if (lookupFile st p).isSome then (st, [])
  else (setFile st p gitignoreContent, [Ev.writeFile p])

/-- `out_dir.mkdir(parents=True, exist_ok=True)`. -/
def mkdirP (st : FS) (d : String) : FS × List Ev :=
  if d ∈ st.dirs then (st, [])
  else ({ st with dirs := d :: st.dirs }, [Ev.mkdirEv d])

/-- The loop `for out_dir in output_paths: mkdir; create_gitignore`. -/
def ensureOutputs (st : FS) : List String → FS × List Ev
  | [] => (st, [])
  | d :: ds =>
    let r1 := mkdirP st d
    let r2 := create_gitignore r1.1 d
    let r3 := ensureOutputs r2.1 ds
    (r3.1, r1.2 ++ r2.2 ++ r3.2)

/-- Result of one external-compiler run: its exit code and the files
(name, bytes) it wrote into the working directory. -/
structure ProtocRes where
  exitCode : Nat
  outFiles : List (String × Content)

/-- The external compiler, as a parameter of the semantics: from the
input files and the primary output directory to its observable result. -/
abbrev Protoc := List FPath → String → ProtocRes

/-- Apply the compiler's writes into the working directory. -/
def applyOutputs (work : String) (st : FS) : List (String × Content) → FS × List Ev
  | [] => (st, [])
  | (n, c) :: t =>
    let r := applyOutputs work (setFile st ⟨work, n⟩ c) t
    (r.1, Ev.writeFile ⟨work, n⟩ :: r.2)

/-- Whether `pat` occurs as a prefix of `s` (on characters). -/
def isPrefB (pat s : List Char) : Bool :=
  match pat, s with
  | [], _ => true
  | _, [] => false
  | x :: xs, y :: ys => x = y && isPrefB xs ys

/-- Whether `pat` occurs as a contiguous substring of `l`. -/
def isInfB (pat : List Char) : List Char → Bool
  | [] => isPrefB pat []
  | l@(_ :: t) => isPrefB pat l || isInfB pat t

/-- A file name matching the glob pattern `*.pb.*`. -/
def hasPB (n : String) : Bool := isInfB ".pb.".data n.data

/-- `list(work_dir.glob("*.pb.*"))`: the (name, bytes) of every regular
file in `work` whose name matches the pattern. -/
def globPB (st : FS) (work : String) : List (String × Content) :=
  (st.files.filter (fun e => decide (e.1.dir = work) && hasPB e.1.name)).map
    (fun e => (e.1.name, e.2))

/-- The inner loop of the distribution phase: copy one source artifact to
every destination directory, writing only when absent or different. -/
def copyToDests (a : String × Content) (st : FS) : List String → FS × List Ev
  | [] => (st, [])
  | d :: ds =>
    let p : FPath := ⟨d, a.1⟩
    if lookupFile st p = some a.2 then copyToDests a st ds
    else
      let r := copyToDests a (setFile st p a.2) ds
      (r.1, Ev.writeFile p :: r.2)

/-- Lines 169-175: for each generated file, for each secondary directory,
copy when the destination is absent or differs. -/
def distributeArtifacts (dests : List String) (st : FS) :
    List (String × Content) → FS × List Ev
  | [] => (st, [])
  | a :: arts =>
    let r1 := copyToDests a st dests
    let r2 := distributeArtifacts dests r1.1 arts
    (r2.1, r1.2 ++ r2.2)

/-- The body of `generate_group` after the missing-input check, for a
non-empty output list `work :: rest`: ensure all output directories and
their `.gitignore`s, run the compiler into `work`, and on exit code 0
glob `*.pb.*` in `work` and distribute to the remaining directories. -/
def generate_core (P : Protoc) (input_files : List FPath) (work : String)
    (rest : List String) (st : FS) : Bool × FS × List Ev :=
  let r1 := ensureOutputs st (work :: rest)
  let res := P input_files work
  let r2 := applyOutputs work r1.1 res.outFiles
  if res.exitCode ≠ 0 then (false, r2.1, r1.2 ++ Ev.invoke :: r2.2)
  else
    let arts := globPB r2.1 work
    let r3 := distributeArtifacts rest r2.1 arts
    (true, r3.1, r1.2 ++ Ev.invoke :: r2.2 ++ r3.2)

/-- `generate_group(input_files, output_dirs, protoc_path, include_dirs)`.
Returns `none` on an unhandled exception (indexing `output_paths[0]` of an
empty list — unreachable from `main`, which skips such groups), otherwise
the returned boolean, the new filesystem, and the side effects in order.
Path resolution (`Path(p).resolve()`) is the identity here: the model's
paths are already absolute and normalized. -/
def generate_group (P : Protoc) (input_files : List FPath) (output_dirs : List String)
    (st : FS) : Option (Bool × FS × List Ev) :=
  -- Validate input files: `missing = [p for p in input_paths if not p.exists()]`
  if input_files.any (fun p => (lookupFile st p).isNone) then some (false, st, [])
  else
    match output_dirs with
    | [] => none
    | work :: rest => some (generate_core P input_files work rest st)

/-! ### Embedding of `main`'s per-group loop -/

/-- One configured group, as consumed from `proto_configs.json`:
`group.get("input", [])`, `group.get("output", [])`, `group.get("cache")`. -/
structure Group where
  input : List FPath
  output : List String
  cache : Option String
deriving DecidableEq

/-- The terminal state of one group's processing. -/
inductive StepKind where
  | skipped
  | upToDate
  | regenerated
  | failed
  | crashed
deriving DecidableEq

/-- The `"hash"` field of a loaded cache record: `cache.get("hash")`. -/
def cachedOf : Option CacheFile → Option String
  | some (.valid h) => h
  | _ => none

/-- One iteration of `main`'s `for idx, group in enumerate(config)` body. -/
def processGroup (P : Protoc) (st : FS) (g : Group) : StepKind × FS × List Ev :=
  match g.cache with
  | none => (.skipped, st, [])
  | some cp =>
    -- `if not input_files or not output_dirs or not cache_path`
    if g.input = [] ∨ g.output = [] ∨ cp = "" then (.skipped, st, [])
    -- `load_cache(cache_path)`: a corrupt file makes `json.load` raise, uncaught
    else if alookup st.caches cp = some CacheFile.corrupt then (.crashed, st, [])
    else
      let fp := combinedHash st g.input
      if cachedOf (alookup st.caches cp) = some fp then (.upToDate, st, [])
      else
        match generate_group P g.input g.output st with
        | none => (.crashed, st, [])
        | some (true, st2, tr) =>
            (.regenerated,
             { st2 with caches := aset st2.caches cp (.valid (some fp)) },
             tr ++ [Ev.writeCache cp fp])
        | some (false, st2, tr) => (.failed, st2, tr)

/-- Outcome of a whole run: `main`'s return value with the final
filesystem and the effect trace, or an uncaught exception. -/
inductive RunOut where
  | ok (code : Nat) (st : FS) (tr : List Ev)
  | crashed (st : FS) (tr : List Ev)
deriving DecidableEq

def RunOut.prepend (tr : List Ev) : RunOut → RunOut
  | .ok c s t => .ok c s (tr ++ t)
  | .crashed s t => .crashed s (tr ++ t)

/-- The final filesystem of a run. -/
def RunOut.stOf : RunOut → FS
  | .ok _ s _ => s
  | .crashed s _ => s

/-- The effect trace of a run. -/
def RunOut.trOf : RunOut → List Ev
  | .ok _ _ t => t
  | .crashed _ t => t

/-- `main`'s exit code, when it returned normally. -/
def RunOut.codeOf : RunOut → Option Nat
  | .ok c _ _ => some c
  | .crashed _ _ => none

/-- `main`'s loop over the configured groups (the compiler path and the
configuration itself have already been obtained): process each group in
order, returning 1 on the first failed generation and 0 otherwise. -/
def processGroups (P : Protoc) : List Group → FS → RunOut
  | [], st => .ok 0 st []
  | g :: gs, st =>
    match processGroup P st g with
    | (.failed, st', tr) => .ok 1 st' tr
    | (.crashed, st', tr) => .crashed st' tr
    | (_, st', tr) => (processGroups P gs st').prepend tr

/-! ### Basic lemmas: association lists -/

theorem alookup_aset_self {α β : Type} [DecidableEq α] (l : List (α × β)) (a : α) (b : β) :
    alookup (aset l a b) a = some b := by
  induction l with
  | nil => simp [aset, alookup]
  | cons kv t ih =>
    obtain ⟨k, v⟩ := kv
    by_cases h : a = k <;> simp [aset, alookup, h, ih]

theorem alookup_aset_ne {α β : Type} [DecidableEq α] (l : List (α × β)) (a a' : α) (b : β)
    (h : a' ≠ a) : alookup (aset l a b) a' = alookup l a' := by
  induction l with
  | nil => simp [aset, alookup, h]
  | cons kv t ih =>
    obtain ⟨k, v⟩ := kv
    by_cases hak : a = k
    · subst hak; simp [aset, alookup, h, ih]
    · by_cases hak' : a' = k <;> simp [aset, alookup, hak, hak', ih]

/-! ### Basic lemmas: MD5 digests are 32 hex characters -/

theorem digestBytes_length (s : Nat × Nat × Nat × Nat) : (digestBytes s).length = 16 := by
  obtain ⟨a, b, c, d⟩ := s
  simp [digestBytes, wordLE]

theorem md5Digest_length (m : List Nat) : (md5Digest m).length = 16 := by
  simp only [md5Digest]
  exact digestBytes_length _

theorem flatMap_byteHex_length (l : List Nat) : (l.flatMap byteHex).length = 2 * l.length := by
  induction l with
  | cons b bs ih =>
    simp [byteHex, ih]
    omega
  | nil => simp

theorem md5hex_length (m : List Nat) : (md5hex m).length = 32 := by
  show ((md5Digest m).flatMap byteHex).length = 32
  rw [flatMap_byteHex_length, md5Digest_length]

theorem md5hex_ne_missing (m : List Nat) : md5hex m ≠ "missing" := by
  intro h
  have h32 := md5hex_length m
  rw [h] at h32
  exact absurd h32 (by decide)

theorem hexDigit_mem (n : Nat) : hexDigit n ∈ hexChars := by
  unfold hexDigit List.getD
  cases h : hexChars.get? n with
  | none => simp [h]; decide
  | some c =>
    simp [h]
    exact List.get?_mem h

theorem mem_byteHex (c : Char) (b : Nat) (h : c ∈ byteHex b) : c ∈ hexChars := by
  simp [byteHex] at h
  rcases h with h | h <;> rw [h] <;> exact hexDigit_mem _

theorem md5hex_chars (m : List Nat) (c : Char) (h : c ∈ (md5hex m).data) : c ∈ hexChars := by
  have : c ∈ (md5Digest m).flatMap byteHex := h
  rw [List.mem_flatMap] at this
  obtain ⟨b, _, hb⟩ := this
  exact mem_byteHex c b hb

/-! ### Basic lemmas: `String.join` and the fingerprint -/

theorem foldl_str (l : List String) : ∀ a : String,
    (l.foldl (· ++ ·) a).data = a.data ++ (l.foldl (· ++ ·) "").data := by
  induction l with
  | nil => intro a; simp
  | cons s t ih =>
    intro a
    show (t.foldl (· ++ ·) (a ++ s)).data = _ ++ (t.foldl (· ++ ·) ("" ++ s)).data
    rw [ih (a ++ s), ih ("" ++ s)]
    simp [String.data_append, List.append_assoc]

theorem join_cons (s : String) (l : List String) :
    String.join (s :: l) = s ++ String.join l := by
  apply String.ext
  show (l.foldl (· ++ ·) ("" ++ s)).data = _
  rw [foldl_str l ("" ++ s)]
  simp [String.join, String.data_append]

theorem combinedHash_nil (st : FS) : combinedHash st [] = "" := rfl

theorem combinedHash_cons (st : FS) (p : FPath) (ps : List FPath) :
    combinedHash st (p :: ps) =
      (lookupFile st p).elim "missing" file_hash ++ combinedHash st ps := by
  show String.join (_ :: _) = _
  rw [join_cons]
  cases h : lookupFile st p <;> simp [inputHashes, combinedHash, h, Option.elim]

theorem combinedHash_congr (st1 st2 : FS) (l : List FPath)
    (h : ∀ p ∈ l, lookupFile st1 p = lookupFile st2 p) :
    combinedHash st1 l = combinedHash st2 l := by
  induction l with
  | nil => rfl
  | cons p ps ih =>
    rw [combinedHash_cons, combinedHash_cons, h p (List.mem_cons_self p ps),
      ih (fun q hq => h q (List.mem_cons_of_mem p hq))]

/-! ### Frame lemmas for the generation pipeline

`FilesFrame st st' ev` says that every regular file not named by a
`writeFile` event of `ev` has the same content in `st'` as in `st`:
the trace records every file write.  `noCacheEv ev` says `ev` contains
no cache commit. -/

def FilesFrame (st st' : FS) (ev : List Ev) : Prop :=
  ∀ p, Ev.writeFile p ∉ ev → lookupFile st' p = lookupFile st p

def noCacheEv (ev : List Ev) : Prop :=
  ∀ cp h, Ev.writeCache cp h ∉ ev

theorem filesFrame_refl (st : FS) (ev : List Ev) : FilesFrame st st ev :=
  fun _ _ => rfl

theorem filesFrame_comp {st1 st2 st3 : FS} {e1 e2 : List Ev}
    (h1 : FilesFrame st1 st2 e1) (h2 : FilesFrame st2 st3 e2) :
    FilesFrame st1 st3 (e1 ++ e2) := by
  intro p hp
  rw [List.mem_append] at hp
  push_neg at hp
  rw [h2 p hp.2, h1 p hp.1]

theorem filesFrame_mono {st st' : FS} {ev ev' : List Ev}
    (sub : ∀ e ∈ ev, e ∈ ev') (h : FilesFrame st st' ev) : FilesFrame st st' ev' :=
  fun p hp => h p (fun hin => hp (sub _ hin))

theorem filesFrame_set (st : FS) (q : FPath) (c : Content) :
    FilesFrame st (setFile st q c) [Ev.writeFile q] := by
  intro p hp
  have hne : p ≠ q := by
    intro h; exact hp (by simp [h])
  exact alookup_aset_ne st.files q p c hne

theorem noCacheEv_nil : noCacheEv [] := by
  intro cp h hmem; exact absurd hmem (List.not_mem_nil _)

theorem noCacheEv_append {e1 e2 : List Ev} (h1 : noCacheEv e1) (h2 : noCacheEv e2) :
    noCacheEv (e1 ++ e2) := by
  intro cp h hmem
  rw [List.mem_append] at hmem
  exact hmem.elim (h1 cp h) (h2 cp h)

/-- Common shape of the pipeline frame facts. -/
def GenFrame (st : FS) (r : FS × List Ev) : Prop :=
  r.1.caches = st.caches ∧ FilesFrame st r.1 r.2 ∧ noCacheEv r.2

theorem genFrame_comp {st : FS} {r1 r2 : FS × List Ev}
    (h1 : GenFrame st r1) (h2 : GenFrame r1.1 r2) :
    GenFrame st (r2.1, r1.2 ++ r2.2) :=
  ⟨h2.1.trans h1.1, filesFrame_comp h1.2.1 h2.2.1, noCacheEv_append h1.2.2 h2.2.2⟩

theorem noCacheEv_single_file (p : FPath) : noCacheEv [Ev.writeFile p] := by
  intro cp h hmem
  simp at hmem

theorem mkdirP_frame (st : FS) (d : String) : GenFrame st (mkdirP st d) := by
  unfold mkdirP GenFrame
  by_cases h : d ∈ st.dirs
  · rw [if_pos h]
    exact ⟨rfl, filesFrame_refl _ _, noCacheEv_nil⟩
  · rw [if_neg h]
    refine ⟨rfl, fun p _ => rfl, ?_⟩
    intro cp hh hmem
    simp at hmem

theorem create_gitignore_frame (st : FS) (d : String) :
    GenFrame st (create_gitignore st d) := by
  unfold create_gitignore GenFrame
  by_cases h : (lookupFile st ⟨d, ".gitignore"⟩).isSome = true
  · rw [if_pos h]
    exact ⟨rfl, filesFrame_refl _ _, noCacheEv_nil⟩
  · rw [if_neg h]
    exact ⟨rfl, filesFrame_set st _ _, noCacheEv_single_file _⟩

theorem ensureOutputs_frame (ds : List String) : ∀ st : FS,
    GenFrame st (ensureOutputs st ds) := by
  induction ds with
  | nil =>
    intro st
    exact ⟨rfl, filesFrame_refl _ _, noCacheEv_nil⟩
  | cons d ds ih =>
    intro st
    have h12 := genFrame_comp (mkdirP_frame st d) (create_gitignore_frame (mkdirP st d).1 d)
    have h123 := genFrame_comp h12 (ih (create_gitignore (mkdirP st d).1 d).1)
    simpa [ensureOutputs, List.append_assoc] using h123

theorem applyOutputs_frame (work : String) (l : List (String × Content)) : ∀ st : FS,
    GenFrame st (applyOutputs work st l) := by
  induction l with
  | nil =>
    intro st
    exact ⟨rfl, filesFrame_refl _ _, noCacheEv_nil⟩
  | cons nc t ih =>
    intro st
    obtain ⟨n, c⟩ := nc
    have hset : GenFrame st (setFile st ⟨work, n⟩ c, [Ev.writeFile ⟨work, n⟩]) :=
      ⟨rfl, filesFrame_set st _ _, noCacheEv_single_file _⟩
    have := genFrame_comp hset (ih (setFile st ⟨work, n⟩ c))
    show GenFrame st (_, Ev.writeFile ⟨work, n⟩ :: (applyOutputs work _ t).2)
    simpa using this

theorem copyToDests_frame (a : String × Content) (ds : List String) : ∀ st : FS,
    GenFrame st (copyToDests a st ds) := by
  induction ds with
  | nil =>
    intro st
    exact ⟨rfl, filesFrame_refl _ _, noCacheEv_nil⟩
  | cons d ds ih =>
    intro st
    by_cases h : lookupFile st ⟨d, a.1⟩ = some a.2
    · show GenFrame st (if lookupFile st ⟨d, a.1⟩ = some a.2 then _ else _)
      rw [if_pos h]
      exact ih st
    · have hset : GenFrame st (setFile st ⟨d, a.1⟩ a.2, [Ev.writeFile ⟨d, a.1⟩]) :=
        ⟨rfl, filesFrame_set st _ _, noCacheEv_single_file _⟩
      have hcomp := genFrame_comp hset (ih (setFile st ⟨d, a.1⟩ a.2))
      show GenFrame st (if lookupFile st ⟨d, a.1⟩ = some a.2 then _ else _)
      rw [if_neg h]
      simpa using hcomp

theorem distributeArtifacts_frame (ds : List String) (arts : List (String × Content)) :
    ∀ st : FS, GenFrame st (distributeArtifacts ds st arts) := by
  induction arts with
  | nil =>
    intro st
    exact ⟨rfl, filesFrame_refl _ _, noCacheEv_nil⟩
  | cons a arts ih =>
    intro st
    exact genFrame_comp (copyToDests_frame a ds st) (ih (copyToDests a st ds).1)

theorem generate_core_frame (P : Protoc) (ins : List FPath) (work : String)
    (rest : List String) (st : FS) :
    (generate_core P ins work rest st).2.1.caches = st.caches ∧
      FilesFrame st (generate_core P ins work rest st).2.1
        (generate_core P ins work rest st).2.2 ∧
      noCacheEv (generate_core P ins work rest st).2.2 := by
  unfold generate_core
  have h1 := ensureOutputs_frame (work :: rest) st
  have h2 := applyOutputs_frame work (P ins work).outFiles (ensureOutputs st (work :: rest)).1
  have h12 := genFrame_comp h1 h2
  by_cases hc : (P ins work).exitCode ≠ 0
  · rw [if_pos hc]
    refine ⟨h12.1, ?_, ?_⟩
    · refine filesFrame_mono ?_ h12.2.1
      intro e he
      simp only [List.mem_append, List.mem_cons] at he ⊢
      tauto
    · intro cp hh hmem
      have hno := h12.2.2 cp hh
      simp only [List.mem_append, List.mem_cons] at hmem hno
      push_neg at hno
      obtain ⟨hn1, hn2⟩ := hno
      simp [hn1, hn2] at hmem
  · rw [if_neg hc]
    have h3 := distributeArtifacts_frame rest
      (globPB (applyOutputs work (ensureOutputs st (work :: rest)).1 (P ins work).outFiles).1 work)
      (applyOutputs work (ensureOutputs st (work :: rest)).1 (P ins work).outFiles).1
    have h123 := genFrame_comp h12 h3
    refine ⟨h123.1, ?_, ?_⟩
    · refine filesFrame_mono ?_ h123.2.1
      intro e he
      simp only [List.mem_append, List.mem_cons] at he ⊢
      tauto
    · intro cp hh hmem
      have hno := h123.2.2 cp hh
      simp only [List.mem_append, List.mem_cons] at hmem hno
      push_neg at hno
      obtain ⟨⟨hn1, hn2⟩, hn3⟩ := hno
      simp [hn1, hn2, hn3] at hmem

theorem generate_group_frame (P : Protoc) (ins : List FPath) (outs : List String)
    (st : FS) (ok : Bool) (st' : FS) (ev : List Ev)
    (h : generate_group P ins outs st = some (ok, st', ev)) :
    st'.caches = st.caches ∧ FilesFrame st st' ev ∧ noCacheEv ev := by
  unfold generate_group at h
  by_cases hm : ins.any (fun p => (lookupFile st p).isNone) = true
  · rw [if_pos hm] at h
    have h' := Option.some.inj h
    simp only [Prod.mk.injEq] at h'
    obtain ⟨-, rfl, rfl⟩ := h'
    exact ⟨rfl, filesFrame_refl _ _, noCacheEv_nil⟩
  · rw [if_neg hm] at h
    cases outs with
    | nil => exact absurd h (by simp)
    | cons work rest =>
      have h' := Option.some.inj h
      have hst : st' = (generate_core P ins work rest st).2.1 := by rw [h']
      have hev : ev = (generate_core P ins work rest st).2.2 := by rw [h']
      subst hst; subst hev
      exact generate_core_frame P ins work rest st

/-- A missing input makes `generate_group` return failure at once, with
the filesystem untouched and no side effect at all. -/
theorem generate_group_missing (P : Protoc) (ins : List FPath) (outs : List String)
    (st : FS) (p : FPath) (hp : p ∈ ins) (hmiss : lookupFile st p = none) :
    generate_group P ins outs st = some (false, st, []) := by
  unfold generate_group
  rw [if_pos]
  exact List.any_eq_true.mpr ⟨p, hp, by simp [hmiss]⟩

/-- A successful `generate_group` had every input present on entry. -/
theorem generate_group_success_inputs (P : Protoc) (ins : List FPath) (outs : List String)
    (st : FS) (st' : FS) (ev : List Ev)
    (h : generate_group P ins outs st = some (true, st', ev)) :
    ∀ p ∈ ins, (lookupFile st p).isSome := by
  by_cases hm : ins.any (fun p => (lookupFile st p).isNone) = true
  · unfold generate_group at h
    rw [if_pos hm] at h
    have h' := Option.some.inj h
    simp only [Prod.mk.injEq] at h'
    exact absurd h'.1 (by simp)
  · intro p hp
    rw [List.any_eq_true] at hm
    cases hl : lookupFile st p with
    | some c => rfl
    | none => exact absurd ⟨p, hp, by simp [hl]⟩ hm

/-! ### The per-group state machine -/

/-- A group accepted by `main`'s validation: non-empty inputs, non-empty
outputs, and a non-empty cache path. -/
def VG (g : Group) : Prop :=
  g.input ≠ [] ∧ g.output ≠ [] ∧ ∃ cp, g.cache = some cp ∧ cp ≠ ""

/-- The group's cache currently holds exactly its current fingerprint. -/
def cacheHit (st : FS) (g : Group) : Prop :=
  ∃ cp, g.cache = some cp ∧
    alookup st.caches cp = some (CacheFile.valid (some (combinedHash st g.input)))

theorem cachedOf_some {c : Option CacheFile} {x : String} (h : cachedOf c = some x) :
    c = some (CacheFile.valid (some x)) := by
  match c, h with
  | some (.valid hh), h => rw [show hh = some x from h]

theorem processGroup_skip (P : Protoc) (st : FS) (g : Group) (h : ¬ VG g) :
    processGroup P st g = (.skipped, st, []) := by
  unfold processGroup
  cases hcg : g.cache with
  | none => rfl
  | some cp =>
    simp only []
    rw [if_pos]
    by_contra hx
    push_neg at hx
    exact h ⟨hx.1, hx.2.1, cp, hcg, hx.2.2⟩

theorem processGroup_crash_corrupt (P : Protoc) (st : FS) (g : Group) (cp : String)
    (hcg : g.cache = some cp) (h1 : g.input ≠ []) (h2 : g.output ≠ []) (h3 : cp ≠ "")
    (hcor : alookup st.caches cp = some CacheFile.corrupt) :
    processGroup P st g = (.crashed, st, []) := by
  unfold processGroup
  rw [hcg]
  simp only []
  rw [if_neg (by simp [h1, h2, h3]), if_pos hcor]

theorem processGroup_hit (P : Protoc) (st : FS) (g : Group) (cp : String)
    (hcg : g.cache = some cp) (h1 : g.input ≠ []) (h2 : g.output ≠ []) (h3 : cp ≠ "")
    (hl : alookup st.caches cp = some (CacheFile.valid (some (combinedHash st g.input)))) :
    processGroup P st g = (.upToDate, st, []) := by
  unfold processGroup
  rw [hcg]
  simp only []
  rw [if_neg (by simp [h1, h2, h3]), if_neg (by rw [hl]; simp), if_pos (by rw [hl]; rfl)]

/-- Full case analysis of one group step. -/
theorem processGroup_cases (P : Protoc) (st : FS) (g : Group) (k : StepKind)
    (st' : FS) (tr : List Ev) (h : processGroup P st g = (k, st', tr)) :
    (k = .skipped ∧ st' = st ∧ tr = [] ∧ ¬ VG g)
  ∨ (k = .crashed ∧ st' = st ∧ tr = [])
  ∨ (∃ cp, g.cache = some cp ∧ VG g ∧ k = .upToDate ∧ st' = st ∧ tr = [] ∧
       alookup st.caches cp = some (CacheFile.valid (some (combinedHash st g.input))))
  ∨ (∃ cp st2 trg, g.cache = some cp ∧ VG g ∧ k = .failed ∧
       cachedOf (alookup st.caches cp) ≠ some (combinedHash st g.input) ∧
       generate_group P g.input g.output st = some (false, st2, trg) ∧
       st' = st2 ∧ tr = trg)
  ∨ (∃ cp st2 trg, g.cache = some cp ∧ VG g ∧ k = .regenerated ∧
       cachedOf (alookup st.caches cp) ≠ some (combinedHash st g.input) ∧
       generate_group P g.input g.output st = some (true, st2, trg) ∧
       st' = { st2 with
         caches := aset st2.caches cp (CacheFile.valid (some (combinedHash st g.input))) } ∧
       tr = trg ++ [Ev.writeCache cp (combinedHash st g.input)]) := by
  unfold processGroup at h
  cases hcg : g.cache with
  | none =>
    rw [hcg] at h
    simp only [] at h
    simp only [Prod.mk.injEq] at h
    obtain ⟨rfl, rfl, rfl⟩ := (by exact ⟨h.1.symm, h.2.1.symm, h.2.2.symm⟩ :
      k = .skipped ∧ st' = st ∧ tr = [])
    refine Or.inl ⟨rfl, rfl, rfl, ?_⟩
    intro hv
    obtain ⟨-, -, cp, hcp, -⟩ := hv
    rw [hcg] at hcp
    exact Option.noConfusion hcp
  | some cp =>
    rw [hcg] at h
    simp only [] at h
    by_cases hg : g.input = [] ∨ g.output = [] ∨ cp = ""
    · rw [if_pos hg] at h
      simp only [Prod.mk.injEq] at h
      refine Or.inl ⟨h.1.symm, h.2.1.symm, h.2.2.symm, ?_⟩
      intro hv
      obtain ⟨h1, h2, cp', hcp', h3⟩ := hv
      rw [hcg] at hcp'
      have hecp : cp = cp' := Option.some.inj hcp'
      subst hecp
      rcases hg with hg | hg | hg
      · exact h1 hg
      · exact h2 hg
      · exact h3 hg
    · push_neg at hg
      obtain ⟨h1, h2, h3⟩ := hg
      have hvg : VG g := ⟨h1, h2, cp, hcg, h3⟩
      rw [if_neg (by simp [h1, h2, h3])] at h
      by_cases hcor : alookup st.caches cp = some CacheFile.corrupt
      · rw [if_pos hcor] at h
        simp only [Prod.mk.injEq] at h
        exact Or.inr (Or.inl ⟨h.1.symm, h.2.1.symm, h.2.2.symm⟩)
      · rw [if_neg hcor] at h
        by_cases hhit : cachedOf (alookup st.caches cp) = some (combinedHash st g.input)
        · rw [if_pos hhit] at h
          simp only [Prod.mk.injEq] at h
          exact Or.inr (Or.inr (Or.inl ⟨cp, rfl, hvg, h.1.symm, h.2.1.symm, h.2.2.symm,
            cachedOf_some hhit⟩))
        · rw [if_neg hhit] at h
          cases hgen : generate_group P g.input g.output st with
          | none =>
            rw [hgen] at h
            simp only [Prod.mk.injEq] at h
            exact Or.inr (Or.inl ⟨h.1.symm, h.2.1.symm, h.2.2.symm⟩)
          | some v =>
            obtain ⟨ok, st2, trg⟩ := v
            rw [hgen] at h
            cases ok with
            | true =>
              simp only [Prod.mk.injEq] at h
              exact Or.inr (Or.inr (Or.inr (Or.inr ⟨cp, st2, trg, rfl, hvg, h.1.symm, hhit,
                rfl, h.2.1.symm, h.2.2.symm⟩)))
            | false =>
              simp only [Prod.mk.injEq] at h
              exact Or.inr (Or.inr (Or.inr (Or.inl ⟨cp, st2, trg, rfl, hvg, h.1.symm, hhit,
                rfl, h.2.1.symm, h.2.2.symm⟩)))

/-! ### Run-level lemmas -/

theorem prepend_stOf (r : RunOut) (tr : List Ev) : (r.prepend tr).stOf = r.stOf := by
  cases r <;> rfl

theorem prepend_trOf (r : RunOut) (tr : List Ev) : (r.prepend tr).trOf = tr ++ r.trOf := by
  cases r <;> rfl

theorem prepend_nil (r : RunOut) : r.prepend [] = r := by
  cases r <;> simp [RunOut.prepend]

theorem prepend_prepend (r : RunOut) (a b : List Ev) :
    (r.prepend b).prepend a = r.prepend (a ++ b) := by
  cases r <;> simp [RunOut.prepend]

/-- Step-level frame: all file writes of one group step are in its trace,
and its only cache write is the traced `save_cache`. -/
theorem processGroup_frame (P : Protoc) (st : FS) (g : Group) (k : StepKind)
    (st' : FS) (tr : List Ev) (h : processGroup P st g = (k, st', tr)) :
    FilesFrame st st' tr ∧
      ∀ cp', (∀ hh, Ev.writeCache cp' hh ∉ tr) →
        alookup st'.caches cp' = alookup st.caches cp' := by
  rcases processGroup_cases P st g k st' tr h with
    ⟨-, rfl, rfl, -⟩ | ⟨-, rfl, rfl⟩ | ⟨cp, -, -, -, rfl, rfl, -⟩ |
    ⟨cp, st2, trg, -, -, -, -, hgen, rfl, rfl⟩ |
    ⟨cp, st2, trg, -, -, -, -, hgen, rfl, rfl⟩
  · exact ⟨filesFrame_refl _ _, fun _ _ => rfl⟩
  · exact ⟨filesFrame_refl _ _, fun _ _ => rfl⟩
  · exact ⟨filesFrame_refl _ _, fun _ _ => rfl⟩
  · obtain ⟨hc, hf, -⟩ := generate_group_frame P g.input g.output st false st' tr hgen
    exact ⟨hf, fun cp' _ => by rw [hc]⟩
  · obtain ⟨hc, hf, -⟩ := generate_group_frame P g.input g.output st true st2 trg hgen
    constructor
    · refine filesFrame_mono ?_ hf
      intro e he
      exact List.mem_append_left _ he
    · intro cp' hno
      have hcpne : cp' ≠ cp := by
        intro he
        subst he
        exact hno (combinedHash st g.input)
          (List.mem_append_right _ (List.mem_cons_self _ _))
      show alookup (aset st2.caches cp _) cp' = _
      rw [alookup_aset_ne st2.caches cp cp' _ hcpne, hc]

/-- Every cache commit in a step's trace belongs to that (valid) group. -/
theorem processGroup_writeCache (P : Protoc) (st : FS) (g : Group) (k : StepKind)
    (st' : FS) (tr : List Ev) (h : processGroup P st g = (k, st', tr))
    (cp : String) (hh : String) (hmem : Ev.writeCache cp hh ∈ tr) :
    VG g ∧ g.cache = some cp := by
  rcases processGroup_cases P st g k st' tr h with
    ⟨-, -, rfl, -⟩ | ⟨-, -, rfl⟩ | ⟨cp', -, -, -, -, rfl, -⟩ |
    ⟨cp', st2, trg, hcg, hvg, -, -, hgen, -, rfl⟩ |
    ⟨cp', st2, trg, hcg, hvg, -, -, hgen, -, rfl⟩
  · exact absurd hmem (List.not_mem_nil _)
  · exact absurd hmem (List.not_mem_nil _)
  · exact absurd hmem (List.not_mem_nil _)
  · obtain ⟨-, -, hnc⟩ := generate_group_frame P g.input g.output st false st2 tr hgen
    exact absurd hmem (hnc cp hh)
  · obtain ⟨-, -, hnc⟩ := generate_group_frame P g.input g.output st true st2 trg hgen
    rw [List.mem_append] at hmem
    rcases hmem with hmem | hmem
    · exact absurd hmem (hnc cp hh)
    · rw [List.mem_singleton] at hmem
      have : cp = cp' ∧ hh = combinedHash st g.input := by
        refine ⟨?_, ?_⟩ <;> cases hmem <;> rfl
      exact ⟨hvg, this.1 ▸ hcg⟩

/-- Run-level frame: over a whole run, files not named by a `writeFile`
event and cache paths not named by a `writeCache` event are unchanged. -/
theorem processGroups_frame (P : Protoc) (gs : List Group) : ∀ st : FS,
    FilesFrame st (processGroups P gs st).stOf (processGroups P gs st).trOf ∧
      ∀ cp, (∀ hh, Ev.writeCache cp hh ∉ (processGroups P gs st).trOf) →
        alookup (processGroups P gs st).stOf.caches cp = alookup st.caches cp := by
  induction gs with
  | nil => exact fun st => ⟨filesFrame_refl _ _, fun _ _ => rfl⟩
  | cons g gs ih =>
    intro st
    rcases hpg : processGroup P st g with ⟨k, st1, tr1⟩
    have hstep := processGroup_frame P st g k st1 tr1 hpg
    cases k with
    | failed =>
      simp only [processGroups, hpg]
      exact hstep
    | crashed =>
      simp only [processGroups, hpg]
      exact hstep
    | skipped =>
      simp only [processGroups, hpg, prepend_stOf, prepend_trOf]
      refine ⟨filesFrame_comp hstep.1 (ih st1).1, ?_⟩
      intro cp hno
      have hno1 : ∀ hh, Ev.writeCache cp hh ∉ tr1 := fun hh hmem =>
        hno hh (List.mem_append_left _ hmem)
      have hno2 : ∀ hh, Ev.writeCache cp hh ∉ (processGroups P gs st1).trOf := fun hh hmem =>
        hno hh (List.mem_append_right _ hmem)
      rw [(ih st1).2 cp hno2, hstep.2 cp hno1]
    | upToDate =>
      simp only [processGroups, hpg, prepend_stOf, prepend_trOf]
      refine ⟨filesFrame_comp hstep.1 (ih st1).1, ?_⟩
      intro cp hno
      have hno1 : ∀ hh, Ev.writeCache cp hh ∉ tr1 := fun hh hmem =>
        hno hh (List.mem_append_left _ hmem)
      have hno2 : ∀ hh, Ev.writeCache cp hh ∉ (processGroups P gs st1).trOf := fun hh hmem =>
        hno hh (List.mem_append_right _ hmem)
      rw [(ih st1).2 cp hno2, hstep.2 cp hno1]
    | regenerated =>
      simp only [processGroups, hpg, prepend_stOf, prepend_trOf]
      refine ⟨filesFrame_comp hstep.1 (ih st1).1, ?_⟩
      intro cp hno
      have hno1 : ∀ hh, Ev.writeCache cp hh ∉ tr1 := fun hh hmem =>
        hno hh (List.mem_append_left _ hmem)
      have hno2 : ∀ hh, Ev.writeCache cp hh ∉ (processGroups P gs st1).trOf := fun hh hmem =>
        hno hh (List.mem_append_right _ hmem)
      rw [(ih st1).2 cp hno2, hstep.2 cp hno1]

/-- Every cache commit in a run's trace belongs to a valid group of the
configuration processed. -/
theorem processGroups_writeCache (P : Protoc) (gs : List Group) : ∀ (st : FS)
    (cp hh : String), Ev.writeCache cp hh ∈ (processGroups P gs st).trOf →
    ∃ g ∈ gs, VG g ∧ g.cache = some cp := by
  induction gs with
  | nil => exact fun st cp hh hmem => absurd hmem (List.not_mem_nil _)
  | cons g gs ih =>
    intro st cp hh hmem
    rcases hpg : processGroup P st g with ⟨k, st1, tr1⟩
    cases k with
    | failed =>
      simp only [processGroups, hpg, RunOut.trOf] at hmem
      exact ⟨g, List.mem_cons_self _ _, processGroup_writeCache P st g _ st1 tr1 hpg cp hh hmem⟩
    | crashed =>
      simp only [processGroups, hpg, RunOut.trOf] at hmem
      exact ⟨g, List.mem_cons_self _ _, processGroup_writeCache P st g _ st1 tr1 hpg cp hh hmem⟩
    | skipped =>
      simp only [processGroups, hpg, prepend_trOf] at hmem
      rw [List.mem_append] at hmem
      rcases hmem with hm | hm
      · exact ⟨g, List.mem_cons_self _ _, processGroup_writeCache P st g _ st1 tr1 hpg cp hh hm⟩
      · obtain ⟨g', hg', hp⟩ := ih st1 cp hh hm
        exact ⟨g', List.mem_cons_of_mem _ hg', hp⟩
    | upToDate =>
      simp only [processGroups, hpg, prepend_trOf] at hmem
      rw [List.mem_append] at hmem
      rcases hmem with hm | hm
      · exact ⟨g, List.mem_cons_self _ _, processGroup_writeCache P st g _ st1 tr1 hpg cp hh hm⟩
      · obtain ⟨g', hg', hp⟩ := ih st1 cp hh hm
        exact ⟨g', List.mem_cons_of_mem _ hg', hp⟩
    | regenerated =>
      simp only [processGroups, hpg, prepend_trOf] at hmem
      rw [List.mem_append] at hmem
      rcases hmem with hm | hm
      · exact ⟨g, List.mem_cons_self _ _, processGroup_writeCache P st g _ st1 tr1 hpg cp hh hm⟩
      · obtain ⟨g', hg', hp⟩ := ih st1 cp hh hm
        exact ⟨g', List.mem_cons_of_mem _ hg', hp⟩

/-- Inversion of a fully successful run on a cons cell. -/
theorem processGroups_ok0_cons (P : Protoc) (g : Group) (gs : List Group) (st st' : FS)
    (tr : List Ev) (h : processGroups P (g :: gs) st = .ok 0 st' tr) :
    ∃ k st1 tr1 tr2, processGroup P st g = (k, st1, tr1) ∧ k ≠ StepKind.failed ∧
      k ≠ StepKind.crashed ∧ processGroups P gs st1 = .ok 0 st' tr2 ∧ tr = tr1 ++ tr2 := by
  rcases hpg : processGroup P st g with ⟨k, st1, tr1⟩
  cases k with
  | failed =>
    simp only [processGroups, hpg] at h
    simp only [RunOut.ok.injEq] at h
    exact absurd h.1 one_ne_zero
  | crashed =>
    simp only [processGroups, hpg] at h
    exact RunOut.noConfusion h
  | skipped =>
    simp only [processGroups, hpg] at h
    cases hrec : processGroups P gs st1 with
    | ok c s t =>
      rw [hrec] at h
      simp only [RunOut.prepend, RunOut.ok.injEq] at h
      obtain ⟨rfl, rfl, rfl⟩ := h
      exact ⟨_, st1, tr1, t, rfl, by simp, by simp, hrec, rfl⟩
    | crashed s t =>
      rw [hrec] at h
      simp only [RunOut.prepend] at h
      exact RunOut.noConfusion h
  | upToDate =>
    simp only [processGroups, hpg] at h
    cases hrec : processGroups P gs st1 with
    | ok c s t =>
      rw [hrec] at h
      simp only [RunOut.prepend, RunOut.ok.injEq] at h
      obtain ⟨rfl, rfl, rfl⟩ := h
      exact ⟨_, st1, tr1, t, rfl, by simp, by simp, hrec, rfl⟩
    | crashed s t =>
      rw [hrec] at h
      simp only [RunOut.prepend] at h
      exact RunOut.noConfusion h
  | regenerated =>
    simp only [processGroups, hpg] at h
    cases hrec : processGroups P gs st1 with
    | ok c s t =>
      rw [hrec] at h
      simp only [RunOut.prepend, RunOut.ok.injEq] at h
      obtain ⟨rfl, rfl, rfl⟩ := h
      exact ⟨_, st1, tr1, t, rfl, by simp, by simp, hrec, rfl⟩
    | crashed s t =>
      rw [hrec] at h
      simp only [RunOut.prepend] at h
      exact RunOut.noConfusion h

/-- A run over `pre ++ gs` whose prefix fully succeeds continues with
`gs` from the prefix's final state (prefix trace prepended). -/
theorem processGroups_append_ok0 (P : Protoc) (gs2 : List Group) : ∀ (pre : List Group)
    (st st1 : FS) (tr1 : List Ev), processGroups P pre st = .ok 0 st1 tr1 →
    processGroups P (pre ++ gs2) st = (processGroups P gs2 st1).prepend tr1 := by
  intro pre
  induction pre with
  | nil =>
    intro st st1 tr1 h
    simp only [processGroups, RunOut.ok.injEq] at h
    obtain ⟨rfl, rfl⟩ := h.2
    rw [List.nil_append, prepend_nil]
  | cons g pre ih =>
    intro st st1 tr1 h
    obtain ⟨k, st2, tra, trb, hstep, hk1, hk2, hrec, rfl⟩ :=
      processGroups_ok0_cons P g pre st st1 tr1 h
    have hih := ih st2 st1 trb hrec
    cases k with
    | failed => exact absurd rfl hk1
    | crashed => exact absurd rfl hk2
    | skipped =>
      show processGroups P (g :: (pre ++ gs2)) st = _
      simp only [processGroups, hstep]
      rw [hih, prepend_prepend]
    | upToDate =>
      show processGroups P (g :: (pre ++ gs2)) st = _
      simp only [processGroups, hstep]
      rw [hih, prepend_prepend]
    | regenerated =>
      show processGroups P (g :: (pre ++ gs2)) st = _
      simp only [processGroups, hstep]
      rw [hih, prepend_prepend]

/-- A run in which every group is invalid or already up to date does
nothing at all: exit code 0, unchanged filesystem, empty trace. -/
theorem processGroups_noop (P : Protoc) (gs : List Group) : ∀ st : FS,
    (∀ g ∈ gs, ¬ VG g ∨ (VG g ∧ cacheHit st g)) →
    processGroups P gs st = .ok 0 st [] := by
  induction gs with
  | nil => exact fun st _ => rfl
  | cons g gs ih =>
    intro st hall
    have hrest := ih st (fun g' hg' => hall g' (List.mem_cons_of_mem _ hg'))
    rcases hall g (List.mem_cons_self _ _) with hv | ⟨hv, hhit⟩
    · have hstep := processGroup_skip P st g hv
      simp only [processGroups, hstep]
      rw [hrest]
      rfl
    · obtain ⟨h1, h2, cp, hcg, h3⟩ := hv
      obtain ⟨cp', hcg', hl⟩ := hhit
      rw [hcg] at hcg'
      have he : cp = cp' := Option.some.inj hcg'
      subst he
      have hstep := processGroup_hit P st g cp hcg h1 h2 h3 hl
      simp only [processGroups, hstep]
      rw [hrest]
      rfl

/-- No two valid groups of the configuration share a cache path. -/
def DistinctCaches (gs : List Group) : Prop :=
  gs.Pairwise (fun g1 g2 => VG g1 → VG g2 → g1.cache ≠ g2.cache)

/-- After a fully successful run, if the run wrote no input file of any
valid group and valid cache paths are distinct, then every valid group's
cache holds exactly its (unchanged) fingerprint in the final state. -/
theorem processGroups_establish (P : Protoc) (gs : List Group) : ∀ (st st' : FS)
    (tr : List Ev), processGroups P gs st = .ok 0 st' tr → DistinctCaches gs →
    (∀ g ∈ gs, VG g → ∀ p ∈ g.input, Ev.writeFile p ∉ tr) →
    ∀ g ∈ gs, VG g → cacheHit st' g := by
  induction gs with
  | nil => intro st st' tr _ _ _ g hg; exact absurd hg (List.not_mem_nil _)
  | cons g0 gs ih =>
    intro st st' tr hrun hdist hin g hg hvg
    obtain ⟨k, st1, tr1, tr2, hstep, hk1, hk2, hrec, rfl⟩ :=
      processGroups_ok0_cons P g0 gs st st' tr hrun
    obtain ⟨hd0, hdtl⟩ := List.pairwise_cons.mp hdist
    rcases List.mem_cons.mp hg with rfl | hgtl
    · -- the head group itself
      have hnotin : ∀ p ∈ g.input, Ev.writeFile p ∉ tr1 ++ tr2 :=
        hin g (List.mem_cons_self _ _) hvg
      have hnotin2 : ∀ p ∈ g.input, Ev.writeFile p ∉ tr2 := fun p hp hm =>
        hnotin p hp (List.mem_append_right _ hm)
      have hnotin1 : ∀ p ∈ g.input, Ev.writeFile p ∉ tr1 := fun p hp hm =>
        hnotin p hp (List.mem_append_left _ hm)
      have hframe := processGroups_frame P gs st1
      rw [hrec] at hframe
      simp only [RunOut.stOf, RunOut.trOf] at hframe
      rcases processGroup_cases P st g k st1 tr1 hstep with
        ⟨-, -, -, hnv⟩ | ⟨hkc, -, -⟩ | ⟨cp, hcg, -, -, rfl, rfl, hl⟩ |
        ⟨-, -, -, -, -, hkf, -, -, -, -⟩ |
        ⟨cp, st2, trg, hcg, -, -, -, hgen, rfl, rfl⟩
      · exact absurd hvg hnv
      · exact absurd hkc hk2
      · -- up to date: the cache entry and the inputs survive the rest
        have hnc : ∀ hh, Ev.writeCache cp hh ∉ tr2 := by
          intro hh hm
          have := processGroups_writeCache P gs _ cp hh (by rw [hrec]; exact hm)
          obtain ⟨g', hg', hvg', hcg'⟩ := this
          exact hd0 g' hg' hvg hvg' (hcg.trans hcg'.symm)
        refine ⟨cp, hcg, ?_⟩
        have hcaches : alookup st'.caches cp = alookup st1.caches cp := hframe.2 cp hnc
        have hfiles : combinedHash st' g.input = combinedHash st1 g.input :=
          combinedHash_congr st' st1 g.input
            (fun p hp => hframe.1 p (hnotin2 p hp))
        rw [hcaches, hfiles]
        exact hl
      · exact absurd hkf hk1
      · -- regenerated: the committed fingerprint survives the rest
        have hnc : ∀ hh, Ev.writeCache cp hh ∉ tr2 := by
          intro hh hm
          have := processGroups_writeCache P gs _ cp hh (by rw [hrec]; exact hm)
          obtain ⟨g', hg', hvg', hcg'⟩ := this
          exact hd0 g' hg' hvg hvg' (hcg.trans hcg'.symm)
        refine ⟨cp, hcg, ?_⟩
        obtain ⟨hgc, hgf, -⟩ := generate_group_frame P g.input g.output st true st2 trg hgen
        have hcaches : alookup st'.caches cp =
            some (CacheFile.valid (some (combinedHash st g.input))) := by
          rw [hframe.2 cp hnc]
          exact alookup_aset_self st2.caches cp _
        have htrg : ∀ p ∈ g.input, Ev.writeFile p ∉ trg := fun p hp hm =>
          hnotin1 p hp (List.mem_append_left _ hm)
        have hfiles : combinedHash st' g.input = combinedHash st g.input := by
          apply combinedHash_congr
          intro p hp
          have hs1 : lookupFile st' p = lookupFile st2 p := hframe.1 p (hnotin2 p hp)
          have hs2 : lookupFile st2 p = lookupFile st p := hgf p (htrg p hp)
          exact hs1.trans hs2
        rw [hcaches, hfiles]
    · -- a later group: induction hypothesis on the tail run
      exact ih st1 st' tr2 hrec hdtl
        (fun g' hg' hv' p hp hm =>
          hin g' (List.mem_cons_of_mem _ hg') hv' p hp (List.mem_append_right _ hm))
        g hgtl hvg

/-! ### Characterization of the distribution phase -/

/-- Full behaviour of the inner copy loop for one artifact `(n, c)`:
every destination ends holding exactly `c` at name `n`; a write event for
a destination occurs exactly when it did not already hold `c`; files with
another name, and directories outside the list, are untouched; and every
event is a `writeFile` of `n` into some destination. -/
theorem copyToDests_spec (n : String) (c : Content) : ∀ (dests : List String) (st : FS),
    (∀ d ∈ dests, lookupFile (copyToDests (n, c) st dests).1 ⟨d, n⟩ = some c) ∧
    (∀ d, Ev.writeFile ⟨d, n⟩ ∈ (copyToDests (n, c) st dests).2 ↔
       (d ∈ dests ∧ lookupFile st ⟨d, n⟩ ≠ some c)) ∧
    (∀ q : FPath, q.name ≠ n → lookupFile (copyToDests (n, c) st dests).1 q = lookupFile st q) ∧
    (∀ e ∈ (copyToDests (n, c) st dests).2, ∃ d ∈ dests, e = Ev.writeFile ⟨d, n⟩) ∧
    (∀ d', d' ∉ dests →
      lookupFile (copyToDests (n, c) st dests).1 ⟨d', n⟩ = lookupFile st ⟨d', n⟩) := by
  intro dests
  induction dests with
  | nil =>
    intro st
    refine ⟨fun d hd => absurd hd (List.not_mem_nil _), ?_, fun q _ => rfl,
      fun e he => absurd he (List.not_mem_nil _), fun d' _ => rfl⟩
    intro d
    simp [copyToDests]
  | cons d ds ih =>
    intro st
    by_cases h : lookupFile st ⟨d, n⟩ = some c
    · have heq : copyToDests (n, c) st (d :: ds) = copyToDests (n, c) st ds := by
        simp only [copyToDests]
        rw [if_pos h]
      rw [heq]
      obtain ⟨ih1, ih2, ih3, ih4, ih5⟩ := ih st
      refine ⟨?_, ?_, ih3, ?_, ?_⟩
      · intro d' hd'
        rcases List.mem_cons.mp hd' with rfl | hd'
        · by_cases hds : d' ∈ ds
          · exact ih1 d' hds
          · rw [ih5 d' hds]; exact h
        · exact ih1 d' hd'
      · intro d'
        rw [ih2 d']
        constructor
        · rintro ⟨hd', hne⟩
          exact ⟨List.mem_cons_of_mem _ hd', hne⟩
        · rintro ⟨hd', hne⟩
          rcases List.mem_cons.mp hd' with rfl | hd'
          · exact absurd h hne
          · exact ⟨hd', hne⟩
      · intro e he
        obtain ⟨d', hd', he'⟩ := ih4 e he
        exact ⟨d', List.mem_cons_of_mem _ hd', he'⟩
      · intro d' hd'
        have h1 : d' ∉ ds := fun hx => hd' (List.mem_cons_of_mem _ hx)
        exact ih5 d' h1
    · have heq : copyToDests (n, c) st (d :: ds) =
          ((copyToDests (n, c) (setFile st ⟨d, n⟩ c) ds).1,
           Ev.writeFile ⟨d, n⟩ :: (copyToDests (n, c) (setFile st ⟨d, n⟩ c) ds).2) := by
        simp only [copyToDests]
        rw [if_neg h]
      rw [heq]
      obtain ⟨ih1, ih2, ih3, ih4, ih5⟩ := ih (setFile st ⟨d, n⟩ c)
      have hset_self : lookupFile (setFile st ⟨d, n⟩ c) ⟨d, n⟩ = some c :=
        alookup_aset_self st.files _ _
      have hset_ne : ∀ q : FPath, q ≠ ⟨d, n⟩ →
          lookupFile (setFile st ⟨d, n⟩ c) q = lookupFile st q :=
        fun q hq => alookup_aset_ne st.files _ q c hq
      refine ⟨?_, ?_, ?_, ?_, ?_⟩
      · intro d' hd'
        rcases List.mem_cons.mp hd' with rfl | hd'
        · by_cases hds : d' ∈ ds
          · exact ih1 d' hds
          · rw [ih5 d' hds]; exact hset_self
        · exact ih1 d' hd'
      · intro d'
        simp only [List.mem_cons]
        by_cases hdd : d' = d
        · subst hdd
          constructor
          · intro _
            exact ⟨Or.inl rfl, h⟩
          · intro _
            exact Or.inl rfl
        · constructor
          · intro hmem
            rcases hmem with hmem | hmem
            · exact absurd (congrArg (fun e => match e with
                | Ev.writeFile p => p.dir
                | _ => "") hmem) hdd
            · obtain ⟨hd', hne⟩ := (ih2 d').mp hmem
              rw [hset_ne ⟨d', n⟩ (by simp [hdd])] at hne
              exact ⟨Or.inr hd', hne⟩
          · rintro ⟨hd', hne⟩
            rcases hd' with rfl | hd'
            · exact absurd rfl hdd
            · refine Or.inr ((ih2 d').mpr ⟨hd', ?_⟩)
              rw [hset_ne ⟨d', n⟩ (by simp [hdd])]
              exact hne
      · intro q hq
        rw [ih3 q hq, hset_ne q (by intro he; rw [he] at hq; exact hq rfl)]
      · intro e he
        rcases List.mem_cons.mp he with rfl | he
        · exact ⟨d, List.mem_cons_self _ _, rfl⟩
        · obtain ⟨d', hd', he'⟩ := ih4 e he
          exact ⟨d', List.mem_cons_of_mem _ hd', he'⟩
      · intro d' hd'
        have h1 : d' ≠ d := fun hx => hd' (hx ▸ List.mem_cons_self _ _)
        have h2 : d' ∉ ds := fun hx => hd' (List.mem_cons_of_mem _ hx)
        rw [ih5 d' h2, hset_ne ⟨d', n⟩ (by simp [h1])]

/-- Full behaviour of the distribution loop over an artifact list with
distinct names: for each artifact and each destination, the destination
ends holding the artifact's bytes, and a write happens exactly when it
was absent or differed; names outside the list are untouched; every
event writes some listed artifact into some destination. -/
theorem distributeArtifacts_spec : ∀ (arts : List (String × Content)) (dests : List String)
    (st : FS), (arts.map Prod.fst).Nodup →
    (∀ n c, (n, c) ∈ arts →
      (∀ d ∈ dests, lookupFile (distributeArtifacts dests st arts).1 ⟨d, n⟩ = some c) ∧
      (∀ d, Ev.writeFile ⟨d, n⟩ ∈ (distributeArtifacts dests st arts).2 ↔
        (d ∈ dests ∧ lookupFile st ⟨d, n⟩ ≠ some c))) ∧
    (∀ q : FPath, q.name ∉ arts.map Prod.fst →
      lookupFile (distributeArtifacts dests st arts).1 q = lookupFile st q) ∧
    (∀ e ∈ (distributeArtifacts dests st arts).2,
      ∃ d ∈ dests, ∃ n' ∈ arts.map Prod.fst, e = Ev.writeFile ⟨d, n'⟩) := by
  intro arts
  induction arts with
  | nil =>
    intro dests st _
    exact ⟨fun n c hnc => absurd hnc (List.not_mem_nil _), fun q _ => rfl,
      fun e he => absurd he (List.not_mem_nil _)⟩
  | cons a as ih =>
    intro dests st hnd
    obtain ⟨a1, a2⟩ := a
    simp only [List.map_cons, List.nodup_cons] at hnd
    obtain ⟨hnotin, hnd'⟩ := hnd
    have heq : distributeArtifacts dests st ((a1, a2) :: as) =
        ((distributeArtifacts dests (copyToDests (a1, a2) st dests).1 as).1,
         (copyToDests (a1, a2) st dests).2 ++
           (distributeArtifacts dests (copyToDests (a1, a2) st dests).1 as).2) := by
      simp only [distributeArtifacts]
    rw [heq]
    obtain ⟨c1, c2, c3, c4, c5⟩ := copyToDests_spec a1 a2 dests st
    obtain ⟨ihm, ihf, ihe⟩ := ih dests (copyToDests (a1, a2) st dests).1 hnd'
    refine ⟨?_, ?_, ?_⟩
    · intro n c hnc
      rcases List.mem_cons.mp hnc with hh | htl
      · -- the head artifact
        obtain ⟨rfl, rfl⟩ : a1 = n ∧ a2 = c := by
          refine ⟨?_, ?_⟩ <;> cases hh <;> rfl
        constructor
        · intro d hd
          have hframe : lookupFile (distributeArtifacts dests
              (copyToDests (a1, a2) st dests).1 as).1 ⟨d, a1⟩ =
              lookupFile (copyToDests (a1, a2) st dests).1 ⟨d, a1⟩ :=
            ihf ⟨d, a1⟩ hnotin
          rw [hframe]
          exact c1 d hd
        · intro d
          simp only [List.mem_append]
          constructor
          · intro hmem
            rcases hmem with hmem | hmem
            · exact (c2 d).mp hmem
            · obtain ⟨d', -, n', hn', he⟩ := ihe _ hmem
              have : a1 = n' := by cases he; rfl
              exact absurd (this ▸ hn') hnotin
          · intro hcond
            exact Or.inl ((c2 d).mpr hcond)
      · -- a later artifact: names differ from the head
        have hname : n ∈ as.map Prod.fst := by
          exact List.mem_map.mpr ⟨(n, c), htl, rfl⟩
        have hne : n ≠ a1 := fun he => hnotin (he ▸ hname)
        obtain ⟨m1, m2⟩ := ihm n c htl
        constructor
        · exact m1
        · intro d
          simp only [List.mem_append]
          constructor
          · intro hmem
            rcases hmem with hmem | hmem
            · obtain ⟨d', -, he⟩ := c4 _ hmem
              have : n = a1 := by cases he; rfl
              exact absurd this hne
            · obtain ⟨hd, hlk⟩ := (m2 d).mp hmem
              rw [c3 ⟨d, n⟩ hne] at hlk
              exact ⟨hd, hlk⟩
          · rintro ⟨hd, hlk⟩
            refine Or.inr ((m2 d).mpr ⟨hd, ?_⟩)
            rw [c3 ⟨d, n⟩ hne]
            exact hlk
    · intro q hq
      simp only [List.map_cons, List.mem_cons] at hq
      push_neg at hq
      rw [ihf q hq.2, c3 q hq.1]
    · intro e he
      rcases List.mem_append.mp he with he | he
      · obtain ⟨d, hd, he'⟩ := c4 e he
        exact ⟨d, hd, a1, by simp, he'⟩
      · obtain ⟨d, hd, n', hn', he'⟩ := ihe e he
        exact ⟨d, hd, n', by simp [hn'], he'⟩

/-- With no duplicate file paths, the `*.pb.*` glob of one directory
yields artifacts with pairwise-distinct names. -/
theorem globPB_nodup (st : FS) (work : String)
    (hwf : (st.files.map Prod.fst).Nodup) : ((globPB st work).map Prod.fst).Nodup := by
  have hsub : ((st.files.filter
      (fun e => decide (e.1.dir = work) && hasPB e.1.name)).map Prod.fst).Sublist
      (st.files.map Prod.fst) :=
    (List.filter_sublist st.files).map Prod.fst
  have hnd : ((st.files.filter
      (fun e => decide (e.1.dir = work) && hasPB e.1.name)).map Prod.fst).Nodup :=
    hwf.sublist hsub
  have : (globPB st work).map Prod.fst = ((st.files.filter
      (fun e => decide (e.1.dir = work) && hasPB e.1.name)).map Prod.fst).map FPath.name := by
    simp [globPB, List.map_map]
  rw [this]
  refine List.Nodup.map_on ?_ hnd
  intro x hx y hy hxy
  obtain ⟨ex, hex, hex'⟩ := List.mem_map.mp hx
  obtain ⟨ey, hey, hey'⟩ := List.mem_map.mp hy
  have hxw : x.dir = work := by
    have := (List.mem_filter.mp hex).2
    rw [Bool.and_eq_true, decide_eq_true_iff] at this
    rw [← hex']
    exact this.1
  have hyw : y.dir = work := by
    have := (List.mem_filter.mp hey).2
    rw [Bool.and_eq_true, decide_eq_true_iff] at this
    rw [← hey']
    exact this.1
  cases x
  cases y
  simp only at hxw hyw hxy
  simp [hxw, hyw, hxy]

/-! ### Fingerprints of existing inputs: 32-char hex blocks -/

theorem inputHashes_length32 (st : FS) (l : List FPath)
    (h : ∀ p ∈ l, (lookupFile st p).isSome) :
    ∀ x ∈ inputHashes st l, x.length = 32 := by
  intro x hx
  obtain ⟨p, hp, hpx⟩ := List.mem_map.mp hx
  cases hl : lookupFile st p with
  | none => exact absurd (hl ▸ h p hp) (by simp)
  | some d =>
    rw [hl] at hpx
    simp only at hpx
    rw [← hpx]
    exact md5hex_length d

/-- Concatenation of equal-length blocks is injective on the block lists. -/
theorem join_fixed_inj : ∀ (l1 l2 : List (List Char)), (∀ x ∈ l1, x.length = 32) →
    (∀ x ∈ l2, x.length = 32) → l1.flatten = l2.flatten → l1 = l2 := by
  intro l1
  induction l1 with
  | nil =>
    intro l2 _ h2 hj
    cases l2 with
    | nil => rfl
    | cons y ys =>
      exfalso
      have hy := h2 y (List.mem_cons_self _ _)
      have : ([] : List (List Char)).flatten.length = (y :: ys).flatten.length := by rw [hj]
      simp [List.flatten, hy] at this
      try omega
  | cons x xs ih =>
    intro l2 h1 h2 hj
    cases l2 with
    | nil =>
      exfalso
      have hx := h1 x (List.mem_cons_self _ _)
      have : (x :: xs).flatten.length = ([] : List (List Char)).flatten.length := by rw [hj]
      simp [List.flatten, hx] at this
      try omega
    | cons y ys =>
      simp only [List.flatten] at hj
      have hlen : x.length = y.length := by
        rw [h1 x (List.mem_cons_self _ _), h2 y (List.mem_cons_self _ _)]
      obtain ⟨hxy, hrest⟩ := List.append_inj hj hlen
      rw [hxy, ih ys (fun z hz => h1 z (List.mem_cons_of_mem _ hz))
        (fun z hz => h2 z (List.mem_cons_of_mem _ hz)) hrest]

theorem join_data (l : List String) : (String.join l).data = (l.map String.data).flatten := by
  induction l with
  | nil => rfl
  | cons s t ih =>
    rw [join_cons, String.data_append, ih]
    rfl

/-- The fingerprint determines the per-file digest list when every input
exists (each contribution is then a fixed 32-character digest). -/
theorem combinedHash_inj_of_present (st : FS) (l1 l2 : List FPath)
    (h1 : ∀ p ∈ l1, (lookupFile st p).isSome) (h2 : ∀ p ∈ l2, (lookupFile st p).isSome)
    (h : combinedHash st l1 = combinedHash st l2) : inputHashes st l1 = inputHashes st l2 := by
  have hd : (inputHashes st l1).map String.data = (inputHashes st l2).map String.data := by
    apply join_fixed_inj
    · intro x hx
      obtain ⟨s, hs, rfl⟩ := List.mem_map.mp hx
      exact inputHashes_length32 st l1 h1 s hs
    · intro x hx
      obtain ⟨s, hs, rfl⟩ := List.mem_map.mp hx
      exact inputHashes_length32 st l2 h2 s hs
    · rw [← join_data, ← join_data]
      exact congrArg String.data h
  have hinj : Function.Injective String.data := fun a b hab => String.ext hab
  exact List.map_injective_iff.mpr hinj hd

/-! ### Committed fingerprints consist of hex characters only -/

theorem combinedHash_chars (st : FS) (l : List FPath)
    (h : ∀ p ∈ l, (lookupFile st p).isSome) :
    ∀ ch ∈ (combinedHash st l).data, ch ∈ hexChars := by
  induction l with
  | nil => intro ch hch; exact absurd hch (List.not_mem_nil _)
  | cons p ps ih =>
    intro ch hch
    rw [combinedHash_cons, String.data_append] at hch
    rcases List.mem_append.mp hch with hch | hch
    · cases hl : lookupFile st p with
      | none => exact absurd (hl ▸ h p (List.mem_cons_self _ _)) (by simp)
      | some d =>
        rw [hl] at hch
        exact md5hex_chars d ch hch
    · exact ih (fun q hq => h q (List.mem_cons_of_mem _ hq)) ch hch

theorem no_missing_infix (s : String) (h : ∀ ch ∈ s.data, ch ∈ hexChars) :
    ¬ ("missing".data <:+: s.data) := by
  intro hinf
  have hm : 'm' ∈ s.data := hinf.subset (by decide)
  have := h 'm' hm
  exact absurd this (by decide)

/-- Provenance of a committed hash: the step committed the fingerprint of
a group whose generation succeeded, so it is made of hex digits only. -/
theorem processGroup_writeCache_hex (P : Protoc) (st : FS) (g : Group) (k : StepKind)
    (st' : FS) (tr : List Ev) (h : processGroup P st g = (k, st', tr))
    (cp hh : String) (hmem : Ev.writeCache cp hh ∈ tr) :
    ∀ ch ∈ hh.data, ch ∈ hexChars := by
  rcases processGroup_cases P st g k st' tr h with
    ⟨-, -, rfl, -⟩ | ⟨-, -, rfl⟩ | ⟨cp', -, -, -, -, rfl, -⟩ |
    ⟨cp', st2, trg, hcg, hvg, -, -, hgen, -, rfl⟩ |
    ⟨cp', st2, trg, hcg, hvg, -, -, hgen, -, rfl⟩
  · exact absurd hmem (List.not_mem_nil _)
  · exact absurd hmem (List.not_mem_nil _)
  · exact absurd hmem (List.not_mem_nil _)
  · obtain ⟨-, -, hnc⟩ := generate_group_frame P g.input g.output st false st2 tr hgen
    exact absurd hmem (hnc cp hh)
  · obtain ⟨-, -, hnc⟩ := generate_group_frame P g.input g.output st true st2 trg hgen
    rw [List.mem_append] at hmem
    rcases hmem with hmem | hmem
    · exact absurd hmem (hnc cp hh)
    · rw [List.mem_singleton] at hmem
      have hhh : hh = combinedHash st g.input := by cases hmem; rfl
      rw [hhh]
      exact combinedHash_chars st g.input
        (generate_group_success_inputs P g.input g.output st st2 trg hgen)

/-- Run-level version of `processGroup_writeCache_hex`. -/
theorem processGroups_writeCache_hex (P : Protoc) (gs : List Group) : ∀ (st : FS)
    (cp hh : String), Ev.writeCache cp hh ∈ (processGroups P gs st).trOf →
    ∀ ch ∈ hh.data, ch ∈ hexChars := by
  induction gs with
  | nil => exact fun st cp hh hmem => absurd hmem (List.not_mem_nil _)
  | cons g gs ih =>
    intro st cp hh hmem
    rcases hpg : processGroup P st g with ⟨k, st1, tr1⟩
    cases k with
    | failed =>
      simp only [processGroups, hpg, RunOut.trOf] at hmem
      exact processGroup_writeCache_hex P st g _ st1 tr1 hpg cp hh hmem
    | crashed =>
      simp only [processGroups, hpg, RunOut.trOf] at hmem
      exact processGroup_writeCache_hex P st g _ st1 tr1 hpg cp hh hmem
    | skipped =>
      simp only [processGroups, hpg, prepend_trOf] at hmem
      rcases List.mem_append.mp hmem with hm | hm
      · exact processGroup_writeCache_hex P st g _ st1 tr1 hpg cp hh hm
      · exact ih st1 cp hh hm
    | upToDate =>
      simp only [processGroups, hpg, prepend_trOf] at hmem
      rcases List.mem_append.mp hmem with hm | hm
      · exact processGroup_writeCache_hex P st g _ st1 tr1 hpg cp hh hm
      · exact ih st1 cp hh hm
    | regenerated =>
      simp only [processGroups, hpg, prepend_trOf] at hmem
      rcases List.mem_append.mp hmem with hm | hm
      · exact processGroup_writeCache_hex P st g _ st1 tr1 hpg cp hh hm
      · exact ih st1 cp hh hm

/-- A failed group step ends the whole run at once with exit code 1. -/
theorem processGroups_cons_failed (P : Protoc) (g : Group) (gs : List Group)
    (st st2 : FS) (tr2 : List Ev) (h : processGroup P st g = (.failed, st2, tr2)) :
    processGroups P (g :: gs) st = .ok 1 st2 tr2 := by
  simp only [processGroups, h]

/-! ### Concrete fixtures used by witnesses and counterexamples -/

set_option maxRecDepth 100000

/-- A compiler that always succeeds and writes nothing. -/
def exP0 : Protoc := fun _ _ => ⟨0, []⟩

def pA : FPath := ⟨"src", "a.proto"⟩

def pB : FPath := ⟨"src", "b.proto"⟩

def c2St : FS := ⟨[(pA, []), (pB, [])], [], []⟩

def c2G1 : Group := ⟨[pA], ["out"], some "cache.json"⟩

def c2G2 : Group := ⟨[pA, pB], ["out"], some "cache.json"⟩

/-- Two valid groups sharing one cache path. -/
def c2Cfg : List Group := [c2G1, c2G2]

def c2Wg : Group := ⟨[pA], ["out"], some "c1.json"⟩

def c2WSt : FS := ⟨[(pA, [])], [], []⟩

def c3g : Group := ⟨[pB], ["out"], some "c3.json"⟩

def c3St : FS := ⟨[], [], []⟩

def c4post : Group := ⟨[pA], ["out"], some "c4.json"⟩

def c5St : FS :=
  ⟨[(⟨"o1", "x.pb.cc"⟩, [1]), (⟨"o1", "x.pb.h"⟩, [2]), (⟨"o2", "x.pb.cc"⟩, [1])],
   ["o1", "o2"], []⟩

def c6g : Group := ⟨[pA], ["out"], some "bad.json"⟩

def c6St : FS := ⟨[(pA, [])], [], [("bad.json", CacheFile.corrupt)]⟩

def c8St : FS := ⟨[(pA, []), (pB, [])], [], []⟩

def c8WSt : FS := ⟨[(pA, []), (pB, [97])], [], []⟩

/-! ### The claims -/

/-- C1: for every group, the computed fingerprint (`combined_hash`, lines
217-218) is the concatenation, in input order and with no separator, of
the MD5 hex digest of each existing input's content and the literal
string `"missing"` for each absent input: it is empty for no inputs and
decomposes input by input as digest-or-marker followed by the fingerprint
of the remaining inputs. -/
theorem spec_c1 (st : FS) (p : FPath) (ps : List FPath) :
    combinedHash st [] = "" ∧
    combinedHash st (p :: ps) =
      (lookupFile st p).elim "missing" md5hex ++ combinedHash st ps := by
  refine ⟨rfl, ?_⟩
  rw [combinedHash_cons]
  cases lookupFile st p <;> rfl

/-- C2 counterexample: two groups sharing one cache path both regenerate
successfully on the first run (exit code 0), yet the second run over the
unchanged filesystem invokes the generator again — the claim's "zero
generator invocations on the second run" fails as stated. -/
theorem spec_c2_counterexample :
    (processGroups exP0 c2Cfg c2St).codeOf = some 0 ∧
    Ev.invoke ∈ (processGroups exP0 c2Cfg ((processGroups exP0 c2Cfg c2St).stOf)).trOf := by
  decide

/-- C2 amended: after a fully successful run, provided no two valid
groups share a cache path and the run wrote no file that is an input of
a valid group, a second run over the resulting filesystem performs no
side effect at all (no generator invocation, no artifact write, no cache
write), leaves the filesystem unchanged, and exits 0: every group's
fresh fingerprint equals its cached hash. -/
theorem spec_c2_amended (P : Protoc) (cfg : List Group) (st st1 : FS) (tr1 : List Ev)
    (h1 : processGroups P cfg st = .ok 0 st1 tr1)
    (hdist : DistinctCaches cfg)
    (hin : ∀ g ∈ cfg, VG g → ∀ p ∈ g.input, Ev.writeFile p ∉ tr1) :
    processGroups P cfg st1 = .ok 0 st1 [] := by
  apply processGroups_noop
  intro g hg
  by_cases hv : VG g
  · exact Or.inr ⟨hv, processGroups_establish P cfg st st1 tr1 h1 hdist hin g hg hv⟩
  · exact Or.inl hv

theorem spec_c2_amended_witness :
    processGroups exP0 [c2Wg] ((processGroups exP0 [c2Wg] c2WSt).stOf) =
      .ok 0 ((processGroups exP0 [c2Wg] c2WSt).stOf) [] := by
  have h1 : processGroups exP0 [c2Wg] c2WSt =
      .ok 0 ((processGroups exP0 [c2Wg] c2WSt).stOf)
        ((processGroups exP0 [c2Wg] c2WSt).trOf) := by decide
  refine spec_c2_amended exP0 [c2Wg] c2WSt _ _ h1 (by simp [DistinctCaches]) ?_
  intro g hg hv p hp
  have hgq : g = c2Wg := by simpa using hg
  subst hgq
  have hpq : p = pA := by
    simpa [c2Wg] using hp
  subst hpq
  decide

/-- C3: the cache file is committed only immediately after a successful
generation attempt: a step that does not end `regenerated` (in
particular a failed generation) leaves every cache file exactly as it
was, and a `regenerated` step rewrites exactly the group's cache path
with the fingerprint computed before the attempt, generation having
returned success. -/
theorem spec_c3 (P : Protoc) (st : FS) (g : Group) (k : StepKind) (st' : FS)
    (tr : List Ev) (h : processGroup P st g = (k, st', tr)) :
    (k ≠ StepKind.regenerated → st'.caches = st.caches) ∧
    (k = StepKind.regenerated → ∃ cp st2 trg, g.cache = some cp ∧
      generate_group P g.input g.output st = some (true, st2, trg) ∧
      st'.caches = aset st.caches cp (CacheFile.valid (some (combinedHash st g.input)))) := by
  rcases processGroup_cases P st g k st' tr h with
    ⟨rfl, rfl, -, -⟩ | ⟨rfl, rfl, -⟩ | ⟨cp, -, -, rfl, rfl, -, -⟩ |
    ⟨cp, st2, trg, -, -, rfl, -, hgen, rfl, -⟩ |
    ⟨cp, st2, trg, hcg, -, rfl, -, hgen, rfl, -⟩
  · exact ⟨fun _ => rfl, fun hkk => StepKind.noConfusion hkk⟩
  · exact ⟨fun _ => rfl, fun hkk => StepKind.noConfusion hkk⟩
  · exact ⟨fun _ => rfl, fun hkk => StepKind.noConfusion hkk⟩
  · obtain ⟨hcch, -, -⟩ := generate_group_frame P g.input g.output st false st' trg hgen
    exact ⟨fun _ => hcch, fun hkk => StepKind.noConfusion hkk⟩
  · obtain ⟨hcch, -, -⟩ := generate_group_frame P g.input g.output st true st2 trg hgen
    refine ⟨fun hne => absurd rfl hne, fun _ => ?_⟩
    refine ⟨cp, st2, trg, hcg, hgen, ?_⟩
    show aset st2.caches cp (CacheFile.valid (some (combinedHash st g.input))) =
      aset st.caches cp (CacheFile.valid (some (combinedHash st g.input)))
    rw [hcch]

theorem spec_c3_witness :
    (processGroup exP0 c2WSt c2Wg).2.1.caches =
      aset c2WSt.caches "c1.json" (CacheFile.valid (some (combinedHash c2WSt [pA]))) := by
  have h : processGroup exP0 c2WSt c2Wg = (StepKind.regenerated,
      (processGroup exP0 c2WSt c2Wg).2.1, (processGroup exP0 c2WSt c2Wg).2.2) := by decide
  obtain ⟨cp, st2, trg, hcg, hgen, hca⟩ := (spec_c3 exP0 c2WSt c2Wg StepKind.regenerated
    (processGroup exP0 c2WSt c2Wg).2.1 (processGroup exP0 c2WSt c2Wg).2.2 h).2 rfl
  have hcp : "c1.json" = cp := Option.some.inj hcg
  rw [← hcp] at hca
  exact hca

/-- C4: when a group's generation fails after a fully successful prefix,
the run stops at once: the result is exit code 1 with the state and
trace of the failing step, independent of every group configured after
it (so no later group is processed), and the cache files committed by
the earlier successful groups are untouched by the failing step. -/
theorem spec_c4 (P : Protoc) (pre post : List Group) (g : Group) (st st1 st2 : FS)
    (tr1 tr2 : List Ev)
    (hpre : processGroups P pre st = .ok 0 st1 tr1)
    (hfail : processGroup P st1 g = (.failed, st2, tr2)) :
    processGroups P (pre ++ g :: post) st = .ok 1 st2 (tr1 ++ tr2) ∧
    st2.caches = st1.caches := by
  constructor
  · rw [processGroups_append_ok0 P (g :: post) pre st st1 tr1 hpre,
      processGroups_cons_failed P g post st1 st2 tr2 hfail]
    rfl
  · rcases processGroup_cases P st1 g _ st2 tr2 hfail with
      ⟨hk, -, -, -⟩ | ⟨hk, -, -⟩ | ⟨-, -, -, hk, -, -, -⟩ |
      ⟨cp, st2x, trg, -, -, -, -, hgen, rfl, -⟩ |
      ⟨-, -, -, -, -, hk, -, -, -, -⟩
    · exact absurd hk (by simp)
    · exact absurd hk (by simp)
    · exact absurd hk (by simp)
    · exact (generate_group_frame P g.input g.output st1 false st2 trg hgen).1
    · exact absurd hk (by simp)

theorem spec_c4_witness :
    processGroups exP0 ([] ++ c3g :: [c4post]) c3St = .ok 1 c3St ([] ++ []) ∧
    c3St.caches = c3St.caches :=
  spec_c4 exP0 [] [c4post] c3g c3St c3St c3St [] [] rfl (by decide)

/-- C5: distribution writes a destination file exactly when it is absent
or its bytes differ from the primary directory's artifact, and after the
pass every destination holds exactly the artifact's bytes: for every
artifact matched by the `*.pb.*` glob of the working directory and every
destination directory. -/
theorem spec_c5 (st : FS) (work : String) (dests : List String) (st' : FS)
    (ev : List Ev) (hwf : (st.files.map Prod.fst).Nodup)
    (h : distributeArtifacts dests st (globPB st work) = (st', ev)) :
    ∀ n c, (n, c) ∈ globPB st work → ∀ d ∈ dests,
      lookupFile st' ⟨d, n⟩ = some c ∧
      (Ev.writeFile ⟨d, n⟩ ∈ ev ↔ lookupFile st ⟨d, n⟩ ≠ some c) := by
  obtain ⟨hm, -, -⟩ :=
    distributeArtifacts_spec (globPB st work) dests st (globPB_nodup st work hwf)
  intro n c hnc d hd
  obtain ⟨m1, m2⟩ := hm n c hnc
  have hst : st' = (distributeArtifacts dests st (globPB st work)).1 := by rw [h]
  have hev : ev = (distributeArtifacts dests st (globPB st work)).2 := by rw [h]
  subst hst
  subst hev
  refine ⟨m1 d hd, ?_⟩
  rw [m2 d]
  simp [hd]

theorem spec_c5_witness :
    lookupFile (distributeArtifacts ["o2"] c5St (globPB c5St "o1")).1
      ⟨"o2", "x.pb.cc"⟩ = some [1] ∧
    (Ev.writeFile ⟨"o2", "x.pb.cc"⟩ ∈ (distributeArtifacts ["o2"] c5St (globPB c5St "o1")).2 ↔
      lookupFile c5St ⟨"o2", "x.pb.cc"⟩ ≠ some [1]) :=
  spec_c5 c5St "o1" ["o2"] _ _ (by decide) rfl "x.pb.cc" [1] (by decide) "o2" (by decide)

/-- C6 counterexample: a valid group whose cache file holds invalid
structured data makes the whole run abort (uncaught `json.load`
exception) without any side effect — the generator is never invoked, so
the group is not regenerated, contradicting the claim that a corrupt
cache forces regeneration and never aborts the run. -/
theorem spec_c6_counterexample :
    processGroups exP0 [c6g] c6St = .crashed c6St [] ∧
    Ev.invoke ∉ (processGroups exP0 [c6g] c6St).trOf := by
  decide

/-- C6 amended: a group whose cache file exists but does not contain
valid structured data makes `load_cache`'s `json.load` raise; the
exception is uncaught, so the run aborts at that group before computing
its fingerprint or regenerating anything (and the corrupt cache is in
particular never treated as an up-to-date match). -/
theorem spec_c6_amended (P : Protoc) (st : FS) (g : Group) (cp : String)
    (gs : List Group) (hcg : g.cache = some cp) (h1 : g.input ≠ [])
    (h2 : g.output ≠ []) (h3 : cp ≠ "")
    (hcor : alookup st.caches cp = some CacheFile.corrupt) :
    processGroup P st g = (.crashed, st, []) ∧
    processGroups P (g :: gs) st = .crashed st [] := by
  have hstep := processGroup_crash_corrupt P st g cp hcg h1 h2 h3 hcor
  refine ⟨hstep, ?_⟩
  simp only [processGroups, hstep]

theorem spec_c6_amended_witness :
    processGroup exP0 c6St c6g = (.crashed, c6St, []) ∧
    processGroups exP0 [c6g] c6St = .crashed c6St [] :=
  spec_c6_amended exP0 c6St c6g "bad.json" [] rfl (by decide) (by decide)
    (by decide) (by decide)

/-- C7: if any input of a group is absent at generation time,
`generate_group` returns failure with the filesystem exactly unchanged
and an empty effect trace: the compiler is not invoked, no directory is
created, no `.gitignore` is written, no artifact is copied. -/
theorem spec_c7 (P : Protoc) (ins : List FPath) (outs : List String) (st : FS)
    (p : FPath) (hp : p ∈ ins) (hmiss : lookupFile st p = none) :
    generate_group P ins outs st = some (false, st, []) :=
  generate_group_missing P ins outs st p hp hmiss

theorem spec_c7_witness : generate_group exP0 [pB] ["out"] c3St = some (false, c3St, []) :=
  spec_c7 exP0 [pB] ["out"] c3St pB (by decide) (by decide)

/-- C8 counterexample: two distinct input files with identical contents;
swapping them is a non-identity reordering of the same unchanged inputs,
yet the fingerprint is unchanged — the claim's "every non-identity
reordering changes the fingerprint" fails as stated. -/
theorem spec_c8_counterexample :
    [pA, pB] ≠ [pB, pA] ∧ ([pA, pB] : List FPath).Perm [pB, pA] ∧
    combinedHash c8St [pA, pB] = combinedHash c8St [pB, pA] := by
  refine ⟨by decide, List.Perm.swap pB pA [], ?_⟩
  rfl

/-- C8 amended: fingerprinting is deterministic — two on-disk states
agreeing on the contents of the listed inputs yield the same fingerprint
— and a reordering changes the fingerprint whenever it changes the
sequence of per-file digests (always true for existing inputs with
pairwise-distinct digests); inputs with equal contents may be swapped
without changing it. -/
theorem spec_c8_amended (st1 st2 : FS) (l l1 l2 : List FPath)
    (hsame : ∀ p ∈ l, lookupFile st1 p = lookupFile st2 p)
    (hex1 : ∀ p ∈ l1, (lookupFile st1 p).isSome)
    (hex2 : ∀ p ∈ l2, (lookupFile st1 p).isSome)
    (hdig : inputHashes st1 l1 ≠ inputHashes st1 l2) :
    combinedHash st1 l = combinedHash st2 l ∧
    combinedHash st1 l1 ≠ combinedHash st1 l2 :=
  ⟨combinedHash_congr st1 st2 l hsame,
   fun h => hdig (combinedHash_inj_of_present st1 l1 l2 hex1 hex2 h)⟩

theorem spec_c8_amended_witness :
    combinedHash c8WSt [pA] = combinedHash c8WSt [pA] ∧
    combinedHash c8WSt [pA] ≠ combinedHash c8WSt [pB] :=
  spec_c8_amended c8WSt c8WSt [pA] [pA] [pB] (fun p _ => rfl) (by decide) (by decide)
    (by decide)

/-- C9: the literal token `"missing"` never equals the MD5 hex digest of
any file content (digests have 32 characters, the token 7), so the
fingerprint contribution of an absent input differs from its
contribution under every possible content. -/
theorem spec_c9 (c : Content) (st1 st2 : FS) (p : FPath)
    (habs : lookupFile st1 p = none) (hpres : lookupFile st2 p = some c) :
    file_hash c ≠ "missing" ∧ inputHashes st1 [p] ≠ inputHashes st2 [p] := by
  refine ⟨md5hex_ne_missing c, ?_⟩
  have e1 : inputHashes st1 [p] = ["missing"] := by simp [inputHashes, habs]
  have e2 : inputHashes st2 [p] = [file_hash c] := by simp [inputHashes, hpres]
  rw [e1, e2]
  intro heq
  exact md5hex_ne_missing c (List.cons.inj heq).1.symm

theorem spec_c9_witness :
    file_hash [97] ≠ "missing" ∧ inputHashes c3St [pB] ≠ inputHashes c8WSt [pB] :=
  spec_c9 [97] c3St c8WSt pB (by decide) (by decide)

/-- C10: every fingerprint committed by `save_cache` during any run is
free of the `"missing"` token: the cache is written only after
`generate_group` confirmed every input exists, so the committed hash is
a concatenation of hex digests, in which `"missing"` cannot occur even
as a substring. -/
theorem spec_c10 (P : Protoc) (gs : List Group) (st : FS) (cp hh : String)
    (hmem : Ev.writeCache cp hh ∈ (processGroups P gs st).trOf) :
    ¬ ("missing".data <:+: hh.data) :=
  no_missing_infix hh (processGroups_writeCache_hex P gs st cp hh hmem)

theorem spec_c10_witness : ¬ ("missing".data <:+: (md5hex []).data) :=
  spec_c10 exP0 [c2Wg] c2WSt "c1.json" (md5hex []) (by decide)

end ProtoGen
